import Mathlib

/-!
Verification of `src/packages/gatsby/src/redux/events/index.ts`: the
serialized source-event task queue, context-token generation and parent
tracking, handler definition/registration, and the event dispatcher.

The module is embedded as a deterministic small-step scheduler over the
single event loop.  The pieces of the system that live outside this file
of the repository (the `fastq` queue engine with concurrency fixed at 1,
`AsyncLocalStorage` from `async_hooks`, `uuid.v4` from
`gatsby-core-utils`, and the `register` operation of the plugin loader)
are modelled from the specification's contracts for them; every
definition whose doc comment says so is such a model.  Everything else
is translated directly from the source.
-/

/-- Identity and configuration of the plugin bound to a handler at
registration time (the slice of `IGatsbyPlugin` used by the events
module); `pluginOptions` is opaque to this core and modelled as a
number. -/
structure PluginRef where
  id : String
  name : String
  pluginOptions : Nat
deriving DecidableEq

/-- Shallow embedding of the raw handler functions (`EventHandlerArg`)
that can be submitted to the queue.  A handler body is a finite sequence
of atomic actions: it can suspend at an asynchronous point (`await`),
call another wrapped source-event handler (the callee's `type`,
`plugin` slot and raw body are inlined in the call site), raise an
error, and finally return a value.  A body with no `await` models a
handler returning a plain value; a body with at least one `await`
models a handler returning a promise that settles when the body
finishes. -/
inductive HProg where
  | ret (v : Nat)
  | throw (e : String)
  | await (k : HProg)
  | invoke (htype : String) (hplugin : Option PluginRef) (hraw : HProg) (args : Nat) (k : HProg)
deriving DecidableEq

/-- The wrapped callable produced by `wrapHandlerWithEventTracking`
(index.ts:111-142): `type` is installed with `Object.defineProperty`
without a `writable` attribute, hence non-writable; `plugin` is
installed with `writable: true` and initial value `null`. -/
structure EventHandler where
  type : String
  typeWritable : Bool
  plugin : Option PluginRef
  pluginWritable : Bool
  raw : HProg
deriving DecidableEq

/-- A definition passed to `defineSourceEvent` (`ISourceEventArgs`):
`type` and `description` may be absent (`none`) or present; the empty
string and an absent field are both falsy in the source's checks.
`meta` is opaque and unused by the module. -/
structure EventDefinition where
  type : Option String
  description : Option String
  handler : Option HProg
  meta : Option Nat
deriving DecidableEq

/-- Truth of the JS falsiness test `!x` on an optional string field. -/
def falsyS : Option String → Bool
  | none => true
  | some s => s == ""

/-- The function `wrapHandlerWithEventTracking` (index.ts:111-142):
builds the wrapped callable, defines the non-writable `type` property
and the writable, initially-null `plugin` property. -/
def wrapHandlerWithEventTracking (type : String) (handler : HProg) : EventHandler :=
  { type := type, typeWritable := false, plugin := none, pluginWritable := true,
    raw := handler }

/-- The function `defineSourceEvent` (index.ts:144-161): validates the
definition (missing or empty `type`, then missing or empty
`description`, then missing `handler`) and wraps the handler. -/
def defineSourceEvent (d : EventDefinition) : Except String EventHandler :=
  if falsyS d.type then .error "Your event is missing a type name."
  else if falsyS d.description then .error "Please add a description to your event"
  else
    match d.handler with
    | none => .error "Please add a handler to your event"
    | some h => .ok (wrapHandlerWithEventTracking (d.type.getD "") h)

/-- Assignment to the `type` property of the wrapped callable.  The
property was defined without `writable: true`, so an ordinary JS
assignment to it is a silent no-op. -/
def writeType (h : EventHandler) (v : String) : EventHandler :=
  if h.typeWritable then { h with type := v } else h

/-- Assignment to the `plugin` property of the wrapped callable (defined
with `writable: true`). -/
def writePlugin (h : EventHandler) (p : Option PluginRef) : EventHandler :=
  if h.pluginWritable then { h with plugin := p } else h

/-- Modelled from the spec: `register(wrappedHandler, pluginRef)` — the
plugin-loading collaborator binds plugin identity by assigning the
handler's mutable `plugin` slot (spec section 4.3); the registration
code itself lives outside this module. -/
def register (h : EventHandler) (p : PluginRef) : EventHandler :=
  writePlugin h (some p)

/-- Settlement state of the future returned by `pushTaskToQueue`
(index.ts:97-109). -/
inductive FStatus where
  | pending
  | resolved (v : Nat)
  | rejected (e : String)
deriving DecidableEq

/-- One queued unit of work (`ITask`), plus bookkeeping used only to
state properties about runs: `tid` is the submission index (tasks are
numbered in push order), `fid` identifies the future created for it by
`pushTaskToQueue`, and `pushedBy` records which task's execution (if
any) performed the enqueue. -/
structure ITask where
  tid : Nat
  fid : Nat
  type : String
  prog : HProg
  args : Nat
  parent : Option String
  plugin : Option PluginRef
  pushedBy : Option Nat
deriving DecidableEq

/-- Observable execution events: task `tid`'s handler body begins /
fully completes (including the asynchronous tail it returns). -/
inductive TraceEv where
  | beg (tid : Nat)
  | fin (tid : Nat)
deriving DecidableEq

/-- Record of one task actually dequeued and started by the queue
worker: the context token generated for it at execution time and the
index of the uuid drawn from the supply. -/
structure ExecRec where
  tid : Nat
  type : String
  uidx : Nat
  token : String
deriving DecidableEq

/-- The task currently holding the queue's single worker, its context
token, and the part of its handler body that has not yet run. -/
structure Active where
  task : ITask
  token : String
  rem : HProg
deriving DecidableEq

/-- Global state of the event system: the fastq pending list, the task
holding the worker (concurrency is fixed at 1), the futures created by
`pushTaskToQueue`, and observation logs (trace of begin/finish events,
executed-task records, every task ever pushed) together with the fresh
counters for uuids, task ids and future ids. -/
structure QState where
  pending : List ITask
  current : Option Active
  futures : Nat → Option FStatus
  trace : List TraceEv
  execLog : List ExecRec
  allTasks : List ITask
  nextU : Nat
  nextT : Nat
  nextF : Nat

/-- Modelled from the spec: `uuid.v4()` from `gatsby-core-utils`, an
external supply of unique identifier strings.  Modelled as an
injective, dash-free encoding of a fresh counter (standing for the
uniqueness of random UUIDs). -/
def uuidStr (n : Nat) : String :=
  String.mk (List.replicate n 'u')

/-- Settle (or create) the future `f` with status `st`. -/
def fupd (g : Nat → Option FStatus) (f : Nat) (st : FStatus) : Nat → Option FStatus :=
  fun x => if x = f then some st else g x

/-- Observable outcome of calling a JS function: either a synchronous
exception escaping the call, or a returned promise (identified by the
id of the future it denotes). -/
inductive CallOutcome where
  | thrown (e : String)
  | future (fid : Nat)
deriving DecidableEq

/-- The task record built by `wrappedFunction` for `pushTaskToQueue`:
the `ITask` of index.ts:49-55 plus the bookkeeping fields. -/
def mkTask (htype : String) (p : PluginRef) (hraw : HProg) (ambient : Option String)
    (pushedBy : Option Nat) (args : Nat) (s : QState) : ITask :=
  { tid := s.nextT, fid := s.nextF, type := htype, prog := hraw, args := args,
    parent := ambient, plugin := some p, pushedBy := pushedBy }

/-- The invocation path `wrappedFunction` (index.ts:115-131) together
with `pushTaskToQueue` (index.ts:97-109).  Because `wrappedFunction` is
an `async function`, the unregistered check `if (!plugin) throw ...`
surfaces as a rejection of the returned promise, never as a synchronous
throw, and no task is enqueued.  Otherwise the wrapper reads the
ambient context token (`asyncStorage.getStore()`) of the calling
execution branch as the task's parent and enqueues the task, returning
the pending future created by `pushTaskToQueue`. -/
def wrappedFunction (htype : String) (hplugin : Option PluginRef) (hraw : HProg)
    (ambient : Option String) (pushedBy : Option Nat) (args : Nat) (s : QState) :
    CallOutcome × QState :=
  match hplugin with
  | none =>
    (.future s.nextF,
     { s with
        futures := fupd s.futures s.nextF
          (.rejected "Please make sure you registered the function"),
        nextF := s.nextF + 1 })
  | some p =>
    (.future s.nextF,
     { s with
        pending := s.pending ++ [mkTask htype p hraw ambient pushedBy args s],
        allTasks := s.allTasks ++ [mkTask htype p hraw ambient pushedBy args s],
        futures := fupd s.futures s.nextF .pending,
        nextT := s.nextT + 1, nextF := s.nextF + 1 })

/-- The worker slot taken when task `t` is dequeued: the context token
generated for it from the `u`-th uuid, with the whole handler body
still to run. -/
def mkActive (t : ITask) (u : Nat) : Active :=
  { task := t, token := t.type ++ "-" ++ uuidStr u, rem := t.prog }

/-- The execution record written when task `t` is dequeued with the
`u`-th uuid. -/
def mkExecRec (t : ITask) (u : Nat) : ExecRec :=
  { tid := t.tid, type := t.type, uidx := u, token := t.type ++ "-" ++ uuidStr u }

/-- One step of the queue engine.  The engine pieces outside this
module are modelled from the spec: fastq with concurrency fixed at 1 (a
dequeued task holds the single worker until its callback fires) and
`AsyncLocalStorage` (the token installed by `run` stays ambient for the
whole execution of the handler, across suspension points).  The worker
body follows index.ts:69-91: when a task is dequeued, a fresh token
`{type}-{uuid}` is generated and the handler is started inside that
scope; a plain return value, or the settled value of a returned
promise, is passed to the queue callback, which resolves the task's
future and releases the worker.  An error raised by the handler is
never caught anywhere in the worker: the callback is not invoked and
the worker is never released, so no further step changes the state
(the queue stalls and the task's future stays pending). -/
def step (s : QState) : QState :=
  match s.current with
  | none =>
    match s.pending with
    | [] => s
    | t :: rest =>
      { s with
          pending := rest,
          current := some (mkActive t s.nextU),
          trace := s.trace ++ [.beg t.tid],
          execLog := s.execLog ++ [mkExecRec t s.nextU],
          nextU := s.nextU + 1 }
  | some a =>
    match a.rem with
    | .ret v =>
      { s with
          current := none,
          futures := fupd s.futures a.task.fid (.resolved v),
          trace := s.trace ++ [.fin a.task.tid] }
    | .throw _ => s
    | .await k => { s with current := some { a with rem := k } }
    | .invoke htype hplugin hraw args k =>
      (wrappedFunction htype hplugin hraw (some a.token) (some a.task.tid) args
        { s with current := some { a with rem := k } }).2

/-- Run `n` scheduler steps. -/
def runQ : Nat → QState → QState
  | 0, s => s
  | n + 1, s => runQ n (step s)

/-- The state before anything has been pushed: the queue and the
context store are lazily created singletons with empty contents. -/
def initState : QState :=
  { pending := [], current := none, futures := fun _ => none, trace := [],
    execLog := [], allTasks := [], nextU := 0, nextT := 0, nextF := 0 }

/-- An external schedule interleaves scheduler steps (`none`) with
calls of wrapped handlers from outside any context scope (`some`, the
handler and its call arguments). -/
def runSched : QState → List (Option (EventHandler × Nat)) → QState
  | s, [] => s
  | s, none :: r => runSched (step s) r
  | s, some c :: r =>
    runSched ((wrappedFunction c.1.type c.1.plugin c.1.raw none none c.2 s).2) r

/-- Push a list of external calls of wrapped handlers (each from
outside any context scope), without running the queue. -/
def pushCalls : List (EventHandler × Nat) → QState → QState
  | [], s => s
  | c :: cs, s =>
    pushCalls cs (wrappedFunction c.1.type c.1.plugin c.1.raw none none c.2 s).2

/-- Settlement state of the promise returned by `runEvent` itself. -/
inductive RunResult where
  | resolved
  | rejected (e : String)
deriving DecidableEq

/-- The dispatcher `runEvent` (index.ts:163-173): iterate the given
handlers in order and call every handler whose `type` equals the event
name with the given args, discarding the future returned by each call.
The returned value records the settlement of `runEvent`'s own promise
and, for observation, the list of calls the loop performed.  A
synchronous throw escaping `event(args)` would reject the dispatcher's
promise and stop the loop; a returned future is discarded unawaited. -/
def runEvent (handlers : List EventHandler) (eventName : String) (args : Nat)
    (s : QState) : RunResult × List (EventHandler × Nat) × QState :=
  match handlers with
  | [] => (.resolved, [], s)
  | h :: rest =>
    if h.type = eventName then
      match wrappedFunction h.type h.plugin h.raw none none args s with
      | (.thrown e, s') => (.rejected e, [(h, args)], s')
      | (.future _, s') =>
        let r := runEvent rest eventName args s'
        (r.1, (h, args) :: r.2.1, r.2.2)
    else runEvent rest eventName args s

/-- The task ids of the begin events of a trace, in trace order. -/
def beginTids (tr : List TraceEv) : List Nat :=
  tr.filterMap fun e => match e with | .beg t => some t | .fin _ => none

/-- Scan a trace left to right checking that task executions are
properly bracketed with at most one task open at every instant; the
result is the task left open (`some (some t)`), `some none` when all
executions are closed, and `none` when the trace overlaps or
interleaves executions. -/
def scanOpen : Option Nat → List TraceEv → Option (Option Nat)
  | o, [] => some o
  | none, .beg t :: r => scanOpen (some t) r
  | some t, .fin t' :: r => if t = t' then scanOpen none r else none
  | none, .fin _ :: _ => none
  | some _, .beg _ :: _ => none

/-- The context token generated for the execution of task `tid`, if it
was executed. -/
def tokenOf (s : QState) (tid : Nat) : Option String :=
  (s.execLog.find? (fun r => r.tid = tid)).map (fun r => r.token)

/-- A handler body that only suspends and returns (no nested handler
calls, no errors): a plain value when there is no `await`, an
eventually-resolved asynchronous value otherwise. -/
def straight : HProg → Bool
  | .ret _ => true
  | .await k => straight k
  | .throw _ => false
  | .invoke _ _ _ _ _ => false

/-- The value a straight-line handler body finally returns. -/
def retValOf : HProg → Nat
  | .ret v => v
  | .await k => retValOf k
  | .throw _ => 0
  | .invoke _ _ _ _ k => retValOf k

/-- Number of scheduler steps a handler body takes to run. -/
def psize : HProg → Nat
  | .ret _ => 1
  | .await k => psize k + 1
  | .throw _ => 1
  | .invoke _ _ _ _ k => psize k + 1

/-- Scheduler steps needed to drain a pending list of tasks. -/
def fuelT (ts : List ITask) : Nat :=
  ts.foldr (fun t n => psize t.prog + 1 + n) 0

/-! ### Helper lemmas about the uuid supply and context tokens -/

theorem uuidStr_inj {n m : Nat} (h : uuidStr n = uuidStr m) : n = m := by
  have hd : List.replicate n 'u' = List.replicate m 'u' := by
    have := String.ext_iff.mp h
    simpa [uuidStr] using this
  have := congrArg List.length hd
  simpa using this

theorem dash_not_mem_uuid (n : Nat) : '-' ∉ (uuidStr n).data := by
  simp [uuidStr, List.mem_replicate]

theorem append_dash_cancel :
    ∀ (a u b v : List Char), '-' ∉ u → '-' ∉ v →
      a ++ '-' :: u = b ++ '-' :: v → u = v := by
  intro a
  induction a with
  | nil =>
    intro u b v hu hv h
    cases b with
    | nil => simpa using h
    | cons c bs =>
      simp at h
      obtain ⟨hc, hrest⟩ := h
      exact absurd (by rw [hrest]; simp : ('-' : Char) ∈ u) hu
  | cons c as ih =>
    intro u b v hu hv h
    cases b with
    | nil =>
      simp at h
      obtain ⟨hc, hrest⟩ := h
      exact absurd (by rw [← hrest]; simp : ('-' : Char) ∈ v) hv
    | cons d bs =>
      simp at h
      exact ih u bs v hu hv h.2

theorem token_ne {t1 t2 : String} {n m : Nat} (h : n ≠ m) :
    t1 ++ "-" ++ uuidStr n ≠ t2 ++ "-" ++ uuidStr m := by
  intro he
  apply h
  apply uuidStr_inj
  have hd := String.ext_iff.mp he
  rw [String.data_append, String.data_append, String.data_append,
      String.data_append] at hd
  have h2 : t1.data ++ '-' :: (uuidStr n).data = t2.data ++ '-' :: (uuidStr m).data := by
    simpa [List.append_assoc] using hd
  exact String.ext_iff.mpr
    (append_dash_cancel _ _ _ _ (dash_not_mem_uuid n) (dash_not_mem_uuid m) h2)

/-! ### Helper lemmas about trace scanning -/

theorem scanOpen_append (u v : List TraceEv) :
    ∀ o, scanOpen o (u ++ v) = (scanOpen o u).bind fun o2 => scanOpen o2 v := by
  induction u with
  | nil => intro o; simp [scanOpen]
  | cons e r ih =>
    intro o
    cases o with
    | none =>
      cases e with
      | beg t => simpa [scanOpen] using ih (some t)
      | fin t => simp [scanOpen]
    | some t0 =>
      cases e with
      | beg t => simp [scanOpen]
      | fin t' =>
        by_cases he : t0 = t'
        · subst he; simpa [scanOpen] using ih none
        · simp [scanOpen, he]

theorem scan_closed :
    ∀ (u : List TraceEv) (st : Option Nat), scanOpen st u = some none →
      (∀ i, TraceEv.beg i ∈ u → TraceEv.fin i ∈ u) ∧
      (∀ t, st = some t → TraceEv.fin t ∈ u) := by
  intro u
  induction u with
  | nil =>
    intro st h
    simp [scanOpen] at h
    subst h
    exact ⟨by simp, by simp⟩
  | cons e r ih =>
    intro st h
    cases st with
    | none =>
      cases e with
      | beg t =>
        simp only [scanOpen] at h
        obtain ⟨h1, h2⟩ := ih (some t) h
        refine ⟨?_, by simp⟩
        intro i hi
        rcases List.mem_cons.mp hi with h' | h'
        · have : i = t := by injection h'
          subst this
          exact List.mem_cons_of_mem _ (h2 i rfl)
        · exact List.mem_cons_of_mem _ (h1 i h')
      | fin t => simp [scanOpen] at h
    | some t0 =>
      cases e with
      | beg t => simp [scanOpen] at h
      | fin t' =>
        by_cases he : t0 = t'
        · subst he
          simp only [scanOpen, if_pos rfl] at h
          obtain ⟨h1, _⟩ := ih none h
          constructor
          · intro i hi
            rcases List.mem_cons.mp hi with h' | h'
            · exact absurd h' (by simp)
            · exact List.mem_cons_of_mem _ (h1 i h')
          · intro t ht
            have h2 : t0 = t := by injection ht
            subst h2
            exact List.mem_cons_self _ _
        · simp [scanOpen, he] at h

/-! ### Helper lemmas about the submission-order index list -/

theorem range'_decomp :
    ∀ (l1 : List Nat) (a : Nat) (l2 : List Nat) (s n : Nat),
      l1 ++ a :: l2 = List.range' s n → a = s + l1.length ∧ l1 = List.range' s l1.length := by
  intro l1
  induction l1 with
  | nil =>
    intro a l2 s n h
    cases n with
    | zero => simp [List.range'] at h
    | succ m =>
      rw [List.range'_succ] at h
      simp at h
      exact ⟨by simp [h.1], by simp [List.range']⟩
  | cons x xs ih =>
    intro a l2 s n h
    cases n with
    | zero => simp [List.range'] at h
    | succ m =>
      rw [List.range'_succ] at h
      simp at h
      obtain ⟨hx, hrest⟩ := h
      obtain ⟨ha, hxs⟩ := ih a l2 (s + 1) m hrest
      subst hx
      constructor
      · simp [ha]; omega
      · simp only [List.length_cons]
        rw [List.range'_succ]
        simp [← hxs]

theorem range_split {l1 : List Nat} {a : Nat} {l2 : List Nat} {n : Nat}
    (h : l1 ++ a :: l2 = List.range n) : a = l1.length ∧ l1 = List.range a := by
  rw [List.range_eq_range'] at h
  obtain ⟨ha, hl⟩ := range'_decomp l1 a l2 0 n h
  simp at ha
  refine ⟨ha, ?_⟩
  rw [hl, ha, List.range_eq_range']

/-! ### Helper lemmas about futures -/

theorem fupd_same (g : Nat → Option FStatus) (f : Nat) (st : FStatus) :
    fupd g f st f = some st := by
  simp [fupd]

theorem fupd_other (g : Nat → Option FStatus) (f : Nat) (st : FStatus) {x : Nat}
    (h : x ≠ f) : fupd g f st x = g x := by
  simp [fupd, h]

/-! ### Equations for `step` -/

theorem step_idle {s : QState} (hc : s.current = none) (hp : s.pending = []) :
    step s = s := by
  unfold step
  rw [hc, hp]

theorem step_dequeue {s : QState} {t : ITask} {rest : List ITask}
    (hc : s.current = none) (hp : s.pending = t :: rest) :
    step s =
      { s with
          pending := rest,
          current := some (mkActive t s.nextU),
          trace := s.trace ++ [.beg t.tid],
          execLog := s.execLog ++ [mkExecRec t s.nextU],
          nextU := s.nextU + 1 } := by
  unfold step
  rw [hc, hp]

theorem step_ret {s : QState} {a : Active} {v : Nat}
    (hc : s.current = some a) (hr : a.rem = .ret v) :
    step s =
      { s with
          current := none,
          futures := fupd s.futures a.task.fid (.resolved v),
          trace := s.trace ++ [.fin a.task.tid] } := by
  obtain ⟨tk, tok, rem⟩ := a
  cases hr
  unfold step
  rw [hc]

theorem step_throw {s : QState} {a : Active} {e : String}
    (hc : s.current = some a) (hr : a.rem = .throw e) :
    step s = s := by
  obtain ⟨tk, tok, rem⟩ := a
  cases hr
  unfold step
  rw [hc]

theorem step_await {s : QState} {a : Active} {k : HProg}
    (hc : s.current = some a) (hr : a.rem = .await k) :
    step s = { s with current := some { a with rem := k } } := by
  obtain ⟨tk, tok, rem⟩ := a
  cases hr
  unfold step
  rw [hc]

theorem step_invoke {s : QState} {a : Active} {htype : String}
    {hplugin : Option PluginRef} {hraw : HProg} {args : Nat} {k : HProg}
    (hc : s.current = some a) (hr : a.rem = .invoke htype hplugin hraw args k) :
    step s =
      (wrappedFunction htype hplugin hraw (some a.token) (some a.task.tid) args
        { s with current := some { a with rem := k } }).2 := by
  obtain ⟨tk, tok, rem⟩ := a
  cases hr
  unfold step
  rw [hc]

/-! ### Small observation lemmas -/

theorem beginTids_append (u v : List TraceEv) :
    beginTids (u ++ v) = beginTids u ++ beginTids v := by
  unfold beginTids
  exact List.filterMap_append u v _

theorem beginTids_beg (t : Nat) : beginTids [.beg t] = [t] := rfl

theorem beginTids_fin (t : Nat) : beginTids [.fin t] = [] := rfl

/-! ### The run invariant -/

/-- Invariant of every state reachable from the initial state by
scheduler steps and external pushes.  It ties together: the trace is
properly bracketed with the currently running task as the one open
execution; begin events appear in execution-record order; uuids are
drawn in execution order; token format; the running task has its
execution record; every task's recorded parent is the token of the
execution that enqueued it (or none for external pushes); tasks are
dequeued in submission order; and submission indices are consecutive. -/
structure QInv (s : QState) : Prop where
  scan : scanOpen none s.trace = some (s.current.map fun a => a.task.tid)
  begs : beginTids s.trace = s.execLog.map fun r => r.tid
  uidxs : (s.execLog.map fun r => r.uidx) = List.range s.nextU
  tokens : ∀ r ∈ s.execLog, r.token = r.type ++ "-" ++ uuidStr r.uidx
  currRec : ∀ a, s.current = some a →
    ∃ r ∈ s.execLog, r.tid = a.task.tid ∧ r.token = a.token
  parents : ∀ t ∈ s.allTasks,
    (t.pushedBy = none → t.parent = none) ∧
    ∀ p, t.pushedBy = some p → ∃ r ∈ s.execLog, r.tid = p ∧ t.parent = some r.token
  order : (s.allTasks.map fun t => t.tid) =
    (s.execLog.map fun r => r.tid) ++ (s.pending.map fun t => t.tid)
  tids : (s.allTasks.map fun t => t.tid) = List.range s.nextT

theorem qinv_wrapped {s : QState} (h : QInv s) (ty : String) (pl : Option PluginRef)
    (raw : HProg) (amb : Option String) (pb : Option Nat) (args : Nat)
    (hok : (amb = none ∧ pb = none) ∨
      ∃ r ∈ s.execLog, pb = some r.tid ∧ amb = some r.token) :
    QInv (wrappedFunction ty pl raw amb pb args s).2 := by
  cases pl with
  | none =>
    exact ⟨h.scan, h.begs, h.uidxs, h.tokens, h.currRec, h.parents, h.order, h.tids⟩
  | some p =>
    refine ⟨h.scan, h.begs, h.uidxs, h.tokens, h.currRec, ?_, ?_, ?_⟩
    · intro t ht
      rcases List.mem_append.mp ht with h' | h'
      · exact h.parents t h'
      · simp at h'
        subst h'
        constructor
        · intro hpb
          rcases hok with ⟨ha, _⟩ | ⟨r, _, hpbr, _⟩
          · simpa [mkTask] using ha
          · simp [mkTask] at hpb
            rw [hpb] at hpbr
            cases hpbr
        · intro q hq
          rcases hok with ⟨_, hpbnone⟩ | ⟨r, hr, hpbr, hambr⟩
          · simp [mkTask] at hq
            rw [hpbnone] at hq
            cases hq
          · simp [mkTask] at hq
            refine ⟨r, hr, ?_, ?_⟩
            · rw [hq] at hpbr
              injection hpbr with h2
              exact h2.symm
            · simpa [mkTask] using hambr
    · show ((s.allTasks ++ [mkTask ty p raw amb pb args s]).map fun t => t.tid) =
        (s.execLog.map fun r => r.tid) ++
          ((s.pending ++ [mkTask ty p raw amb pb args s]).map fun t => t.tid)
      simp only [List.map_append]
      rw [h.order, List.append_assoc]
    · show ((s.allTasks ++ [mkTask ty p raw amb pb args s]).map fun t => t.tid) =
        List.range (s.nextT + 1)
      simp only [List.map_append]
      rw [h.tids, List.range_succ]
      simp [mkTask]

theorem qinv_step {s : QState} (h : QInv s) : QInv (step s) := by
  rcases hc : s.current with _ | a
  · rcases hp : s.pending with _ | ⟨t, rest⟩
    · rw [step_idle hc hp]
      exact h
    · rw [step_dequeue hc hp]
      have hscan : scanOpen none s.trace = some none := by
        have h2 := h.scan
        rw [hc] at h2
        simpa using h2
      have hord : (s.allTasks.map fun t2 => t2.tid) =
          (s.execLog.map fun r => r.tid) ++ (t.tid :: (rest.map fun t2 => t2.tid)) := by
        have h2 := h.order
        rw [hp] at h2
        simpa using h2
      refine ⟨?_, ?_, ?_, ?_, ?_, ?_, ?_, ?_⟩
      · show scanOpen none (s.trace ++ [.beg t.tid]) = _
        rw [scanOpen_append, hscan]
        simp [scanOpen, mkActive]
      · show beginTids (s.trace ++ [.beg t.tid]) = _
        rw [beginTids_append, h.begs, beginTids_beg]
        simp [mkExecRec]
      · show ((s.execLog ++ [mkExecRec t s.nextU]).map fun r => r.uidx) =
          List.range (s.nextU + 1)
        simp only [List.map_append]
        rw [h.uidxs, List.range_succ]
        simp [mkExecRec]
      · intro r hr
        rcases List.mem_append.mp hr with h' | h'
        · exact h.tokens r h'
        · simp at h'
          subst h'
          rfl
      · intro a2 ha2
        simp at ha2
        subst ha2
        exact ⟨mkExecRec t s.nextU, List.mem_append_right _ (by simp), rfl, rfl⟩
      · intro t2 ht2
        obtain ⟨h1, h2⟩ := h.parents t2 ht2
        refine ⟨h1, ?_⟩
        intro p hp2
        obtain ⟨r, hr, e1, e2⟩ := h2 p hp2
        exact ⟨r, List.mem_append_left _ hr, e1, e2⟩
      · show (s.allTasks.map fun t2 => t2.tid) =
          ((s.execLog ++ [mkExecRec t s.nextU]).map fun r => r.tid) ++
            (rest.map fun t2 => t2.tid)
        rw [hord]
        simp [mkExecRec]
      · exact h.tids
  · rcases hr : a.rem with v | e | k | ⟨ht2, hp2, hw2, ar2, k2⟩
    · rw [step_ret hc hr]
      refine ⟨?_, ?_, h.uidxs, h.tokens, ?_, h.parents, h.order, h.tids⟩
      · show scanOpen none (s.trace ++ [.fin a.task.tid]) = _
        have h2 := h.scan
        rw [hc] at h2
        rw [scanOpen_append, h2]
        simp [scanOpen]
      · show beginTids (s.trace ++ [.fin a.task.tid]) = _
        rw [beginTids_append, h.begs, beginTids_fin]
        simp
      · intro a2 ha2
        simp at ha2
    · rw [step_throw hc hr]
      exact h
    · rw [step_await hc hr]
      refine ⟨?_, h.begs, h.uidxs, h.tokens, ?_, h.parents, h.order, h.tids⟩
      · have h2 := h.scan
        rw [hc] at h2
        exact h2
      · intro a2 ha2
        simp at ha2
        obtain ⟨r, hrm, e1, e2⟩ := h.currRec a hc
        refine ⟨r, hrm, ?_, ?_⟩
        · rw [← ha2]
          exact e1
        · rw [← ha2]
          exact e2
    · rw [step_invoke hc hr]
      have hmid : QInv { s with current := some { a with rem := k2 } } := by
        refine ⟨?_, h.begs, h.uidxs, h.tokens, ?_, h.parents, h.order, h.tids⟩
        · have h2 := h.scan
          rw [hc] at h2
          exact h2
        · intro a2 ha2
          simp at ha2
          obtain ⟨r, hrm, e1, e2⟩ := h.currRec a hc
          refine ⟨r, hrm, ?_, ?_⟩
          · rw [← ha2]
            exact e1
          · rw [← ha2]
            exact e2
      apply qinv_wrapped hmid
      right
      obtain ⟨r, hrm, e1, e2⟩ := h.currRec a hc
      exact ⟨r, hrm, by rw [e1], by rw [e2]⟩

/-! ### Reachability -/

theorem qinv_init : QInv initState := by
  refine ⟨?_, ?_, ?_, ?_, ?_, ?_, ?_, ?_⟩ <;>
    simp [initState, scanOpen, beginTids]

theorem qinv_runSched {s : QState} (h : QInv s) :
    ∀ sched, QInv (runSched s sched) := by
  intro sched
  induction sched generalizing s with
  | nil => exact h
  | cons c r ih =>
    cases c with
    | none => exact ih (qinv_step h)
    | some c2 => exact ih (qinv_wrapped h _ _ _ _ _ _ (Or.inl ⟨rfl, rfl⟩))

theorem qinv_runQ {s : QState} (h : QInv s) : ∀ n, QInv (runQ n s) := by
  intro n
  induction n generalizing s with
  | zero => exact h
  | succ m ih => exact ih (qinv_step h)

theorem qinv_pushCalls {s : QState} (h : QInv s) :
    ∀ cs, QInv (pushCalls cs s) := by
  intro cs
  induction cs generalizing s with
  | nil => exact h
  | cons c r ih => exact ih (qinv_wrapped h _ _ _ _ _ _ (Or.inl ⟨rfl, rfl⟩))

/-! ### Derived facts about reachable states -/

theorem exec_tids_range {s : QState} (h : QInv s) :
    (s.execLog.map fun r => r.tid) = List.range s.execLog.length := by
  have hsplit : (s.execLog.map fun r => r.tid) ++ (s.pending.map fun t => t.tid) =
      List.range s.nextT := by
    rw [← h.order, h.tids]
  have hlen : s.execLog.length ≤ s.nextT := by
    have h2 := congrArg List.length hsplit
    simp at h2
    omega
  have h3 := List.take_left (s.execLog.map fun r => r.tid)
    (s.pending.map fun t => t.tid)
  rw [hsplit] at h3
  simp only [List.length_map] at h3
  rw [List.take_range] at h3
  rw [← h3, inf_eq_left.mpr hlen]

theorem exec_tids_nodup {s : QState} (h : QInv s) :
    (s.execLog.map fun r => r.tid).Nodup := by
  rw [exec_tids_range h]
  exact List.nodup_range _

theorem exec_length_nextU {s : QState} (h : QInv s) :
    s.execLog.length = s.nextU := by
  have h2 := congrArg List.length h.uidxs
  simpa using h2

theorem beginTids_cons_beg (t : Nat) (v : List TraceEv) :
    beginTids (TraceEv.beg t :: v) = t :: beginTids v := rfl

theorem find_key_unique :
    ∀ (l : List ExecRec) (p : Nat) (r : ExecRec),
      r ∈ l → r.tid = p → (l.map fun r2 => r2.tid).Nodup →
      l.find? (fun r2 => r2.tid = p) = some r := by
  intro l
  induction l with
  | nil => intro p r hr; simp at hr
  | cons x xs ih =>
    intro p r hr hkey hnd
    simp at hnd
    rcases List.mem_cons.mp hr with h' | h'
    · subst h'
      simp [List.find?, hkey]
    · have hx : ¬(x.tid = p) := by
        intro he
        exact hnd.1 r h' (by rw [hkey, he])
      simp [List.find?, hx]
      exact ih p r h' hkey hnd.2

/-! ### Running straight-line handler bodies to completion -/

theorem runQ_add (a b : Nat) (s : QState) : runQ (a + b) s = runQ b (runQ a s) := by
  induction a generalizing s with
  | zero =>
    rw [Nat.zero_add]
    rfl
  | succ n ih =>
    rw [Nat.succ_add]
    exact ih (step s)

theorem runQ_straight :
    ∀ (p : HProg), straight p = true →
      ∀ (s : QState) (t : ITask) (tok : String), s.current = some ⟨t, tok, p⟩ →
        runQ (psize p) s =
          { s with current := none,
                   futures := fupd s.futures t.fid (.resolved (retValOf p)),
                   trace := s.trace ++ [.fin t.tid] } := by
  intro p
  induction p with
  | ret v =>
    intro _ s t tok hc
    show runQ 0 (step s) = _
    rw [step_ret hc rfl]
    rfl
  | throw e => intro hs; simp [straight] at hs
  | await k ih =>
    intro hs s t tok hc
    have hs2 : straight k = true := by simpa [straight] using hs
    show runQ (psize k) (step s) = _
    rw [step_await hc rfl]
    exact ih hs2 _ t tok rfl
  | invoke ht2 hp2 hw2 ar2 k2 ih => intro hs; simp [straight] at hs

theorem runQ_dequeue_straight {t : ITask} (hs : straight t.prog = true)
    {s : QState} {rest : List ITask} (hc : s.current = none)
    (hp : s.pending = t :: rest) :
    runQ (psize t.prog + 1) s =
      { s with pending := rest, current := none,
               futures := fupd s.futures t.fid (.resolved (retValOf t.prog)),
               trace := s.trace ++ [.beg t.tid, .fin t.tid],
               execLog := s.execLog ++ [mkExecRec t s.nextU],
               nextU := s.nextU + 1 } := by
  show runQ (psize t.prog) (step s) = _
  rw [step_dequeue hc hp]
  rw [runQ_straight t.prog hs _ t (t.type ++ "-" ++ uuidStr s.nextU) rfl]
  simp

theorem runQ_drain_untouched :
    ∀ (ts : List ITask) (s : QState), s.current = none → s.pending = ts →
      (∀ t ∈ ts, straight t.prog = true) → ∀ f : Nat, (∀ t ∈ ts, t.fid ≠ f) →
      (runQ (fuelT ts) s).futures f = s.futures f := by
  intro ts
  induction ts with
  | nil => intro s hc hp hstr f hf; rfl
  | cons t rest ih =>
    intro s hc hp hstr f hf
    rw [show fuelT (t :: rest) = (psize t.prog + 1) + fuelT rest from rfl, runQ_add]
    rw [runQ_dequeue_straight (hstr t (by simp)) hc hp]
    rw [ih _ rfl rfl (fun t2 ht2 => hstr t2 (by simp [ht2])) f
        (fun t2 ht2 => hf t2 (by simp [ht2]))]
    exact fupd_other _ _ _ (fun he => hf t (by simp) he.symm)

theorem runQ_drain_resolved :
    ∀ (ts : List ITask) (s : QState), s.current = none → s.pending = ts →
      (∀ t ∈ ts, straight t.prog = true) →
      (ts.map fun t => t.fid).Nodup →
      ∀ t ∈ ts, (runQ (fuelT ts) s).futures t.fid =
        some (.resolved (retValOf t.prog)) := by
  intro ts
  induction ts with
  | nil => intro s _ _ _ _ t ht; simp at ht
  | cons t0 rest ih =>
    intro s hc hp hstr hnd t ht
    rw [show fuelT (t0 :: rest) = (psize t0.prog + 1) + fuelT rest from rfl, runQ_add]
    rw [runQ_dequeue_straight (hstr t0 (by simp)) hc hp]
    simp only [List.map_cons, List.nodup_cons] at hnd
    rcases List.mem_cons.mp ht with h' | h'
    · subst h'
      rw [runQ_drain_untouched rest _ rfl rfl
          (fun t2 ht2 => hstr t2 (by simp [ht2])) t.fid ?hne]
      · exact fupd_same _ _ _
      case hne =>
        intro t2 ht2 he
        exact hnd.1 (by rw [← he]; exact List.mem_map_of_mem _ ht2)
    · exact ih _ rfl rfl (fun t2 ht2 => hstr t2 (by simp [ht2])) hnd.2 t h'

/-! ### Dispatcher lemmas -/

theorem wrappedFunction_future (ty : String) (pl : Option PluginRef) (raw : HProg)
    (amb : Option String) (pb : Option Nat) (args : Nat) (s : QState) :
    (wrappedFunction ty pl raw amb pb args s).1 = .future s.nextF := by
  cases pl <;> rfl

theorem wrappedFunction_frame (ty : String) (pl : Option PluginRef) (raw : HProg)
    (amb : Option String) (pb : Option Nat) (args : Nat) (s : QState) :
    (wrappedFunction ty pl raw amb pb args s).2.trace = s.trace ∧
    (wrappedFunction ty pl raw amb pb args s).2.execLog = s.execLog ∧
    (wrappedFunction ty pl raw amb pb args s).2.current = s.current := by
  cases pl <;> exact ⟨rfl, rfl, rfl⟩

theorem runEvent_cons_match (h : EventHandler) (rest : List EventHandler)
    (en : String) (args : Nat) (s : QState) (hm : h.type = en) :
    runEvent (h :: rest) en args s =
      ((runEvent rest en args
          (wrappedFunction h.type h.plugin h.raw none none args s).2).1,
       (h, args) ::
         (runEvent rest en args
           (wrappedFunction h.type h.plugin h.raw none none args s).2).2.1,
       (runEvent rest en args
         (wrappedFunction h.type h.plugin h.raw none none args s).2).2.2) := by
  cases hpl : h.plugin with
  | none =>
    simp only [runEvent]
    rw [if_pos hm, hpl]
    rfl
  | some p =>
    simp only [runEvent]
    rw [if_pos hm, hpl]
    rfl

theorem runEvent_cons_skip (h : EventHandler) (rest : List EventHandler)
    (en : String) (args : Nat) (s : QState) (hm : ¬h.type = en) :
    runEvent (h :: rest) en args s = runEvent rest en args s := by
  simp only [runEvent]
  rw [if_neg hm]

/-! ### Claim theorems -/

/-- C5: for every definition passed to `defineSourceEvent`, an absent or
empty `type` fails with the error naming the missing type name;
otherwise an absent or empty `description` fails with the error naming
the missing description; otherwise an absent `handler` fails with the
error naming the missing handler; otherwise the call returns the
wrapped callable exposing the definition's event type and an
initially-null (writable) plugin slot. -/
theorem c5_define_validation (d : EventDefinition) :
    ((d.type = none ∨ d.type = some "") →
      defineSourceEvent d = .error "Your event is missing a type name.") ∧
    (∀ ty, d.type = some ty → ty ≠ "" →
      (d.description = none ∨ d.description = some "") →
      defineSourceEvent d = .error "Please add a description to your event") ∧
    (∀ ty ds, d.type = some ty → ty ≠ "" → d.description = some ds → ds ≠ "" →
      d.handler = none →
      defineSourceEvent d = .error "Please add a handler to your event") ∧
    (∀ ty ds p, d.type = some ty → ty ≠ "" → d.description = some ds → ds ≠ "" →
      d.handler = some p →
      defineSourceEvent d = .ok { type := ty, typeWritable := false, plugin := none,
                                  pluginWritable := true, raw := p }) := by
  refine ⟨?_, ?_, ?_, ?_⟩
  · intro hty
    rcases hty with h | h <;> simp [defineSourceEvent, falsyS, h]
  · intro ty hty hne hds
    rcases hds with h | h <;>
      simp [defineSourceEvent, falsyS, hty, hne, h]
  · intro ty ds hty htne hds hdne hh
    simp [defineSourceEvent, falsyS, hty, htne, hds, hdne, hh]
  · intro ty ds p hty htne hds hdne hh
    simp [defineSourceEvent, falsyS, hty, htne, hds, hdne, hh,
      wrapHandlerWithEventTracking]

theorem c5_define_validation_witness :
    defineSourceEvent ⟨some "", some "d", some (.ret 0), none⟩ =
      .error "Your event is missing a type name." :=
  (c5_define_validation ⟨some "", some "d", some (.ret 0), none⟩).1 (Or.inr rfl)

/-- C9: for every handle produced by wrapping a definition, the `type`
property equals the definition's type and is non-writable (an
assignment to it is a no-op); the `plugin` slot is writable and
initially null; `register` mutates exactly the `plugin` slot, leaving
`type` (and the raw handler) unchanged.  Invocation does not touch the
handle at all: `wrappedFunction` only reads its fields and returns a
new queue state. -/
theorem c9_type_slot_immutable (ty : String) (raw : HProg) :
    (wrapHandlerWithEventTracking ty raw).type = ty ∧
    (wrapHandlerWithEventTracking ty raw).typeWritable = false ∧
    (wrapHandlerWithEventTracking ty raw).plugin = none ∧
    (wrapHandlerWithEventTracking ty raw).pluginWritable = true ∧
    (∀ v, writeType (wrapHandlerWithEventTracking ty raw) v =
      wrapHandlerWithEventTracking ty raw) ∧
    (∀ p, register (wrapHandlerWithEventTracking ty raw) p =
      { wrapHandlerWithEventTracking ty raw with plugin := some p }) := by
  exact ⟨rfl, rfl, rfl, rfl, fun v => rfl, fun p => rfl⟩

/-- C4 counterexample: the claim says the "not registered" failure is
reported synchronously; in the code `wrappedFunction` is an `async
function`, so at this concrete input the invocation returns a future
(which is rejected) and never surfaces a synchronous throw. -/
theorem c4_counterexample_not_sync :
    (wrappedFunction (wrapHandlerWithEventTracking "A" (.ret 1)).type
        (wrapHandlerWithEventTracking "A" (.ret 1)).plugin
        (wrapHandlerWithEventTracking "A" (.ret 1)).raw none none 5 initState).1 ≠
      CallOutcome.thrown "Please make sure you registered the function" := by
  decide

/-- C4 (amended): invoking a defined handler whose plugin slot is still
null fails with the "not registered" error delivered as an immediate
rejection of the invocation's returned future (the check runs before
any enqueue), and no task is enqueued: the queue's pending list, the
task log and the trace are unchanged by the failed invocation. -/
theorem c4_unregistered_rejects_queue_unchanged (ty : String) (raw : HProg)
    (amb : Option String) (pb : Option Nat) (args : Nat) (s : QState) :
    (wrappedFunction ty none raw amb pb args s).1 = .future s.nextF ∧
    (wrappedFunction ty none raw amb pb args s).2.futures s.nextF =
      some (.rejected "Please make sure you registered the function") ∧
    (wrappedFunction ty none raw amb pb args s).2.pending = s.pending ∧
    (wrappedFunction ty none raw amb pb args s).2.allTasks = s.allTasks ∧
    (wrappedFunction ty none raw amb pb args s).2.trace = s.trace := by
  exact ⟨rfl, fupd_same _ _ _, rfl, rfl, rfl⟩

/-- C6: for every list of handlers, event name and args, `runEvent`
invokes exactly the handlers whose `type` equals the event name, in
list order, each with the given args; non-matching handlers are never
invoked.  The dispatcher discards each invocation's future and does not
await it: no queued task is executed during dispatch (trace and
execution log are unchanged — dispatch only enqueues). -/
theorem c6_dispatch_matching_in_order (handlers : List EventHandler)
    (eventName : String) (args : Nat) (s : QState) :
    (runEvent handlers eventName args s).2.1 =
      (handlers.filter fun h => h.type = eventName).map (fun h => (h, args)) ∧
    (runEvent handlers eventName args s).2.2.trace = s.trace ∧
    (runEvent handlers eventName args s).2.2.execLog = s.execLog := by
  induction handlers generalizing s with
  | nil => exact ⟨rfl, rfl, rfl⟩
  | cons h rest ih =>
    by_cases hm : h.type = eventName
    · rw [runEvent_cons_match h rest eventName args s hm]
      obtain ⟨i1, i2, i3⟩ :=
        ih (wrappedFunction h.type h.plugin h.raw none none args s).2
      obtain ⟨f1, f2, _⟩ := wrappedFunction_frame h.type h.plugin h.raw none none args s
      refine ⟨?_, ?_, ?_⟩
      · rw [i1]
        simp [List.filter_cons, hm]
      · rw [i2, f1]
      · rw [i3, f2]
    · rw [runEvent_cons_skip h rest eventName args s hm]
      obtain ⟨i1, i2, i3⟩ := ih s
      refine ⟨?_, i2, i3⟩
      rw [i1]
      simp [List.filter_cons, hm]

/-- C10: the promise returned by `runEvent` always resolves, for every
input, even when futures of matching invocations are rejected (for
example handlers whose plugin slot is still null — the universal
quantification over `handlers` includes them); every returned future is
discarded by the dispatcher, and no call of a wrapped handler can throw
synchronously, because `wrappedFunction` is an `async function`. -/
theorem c10_run_event_always_resolves (handlers : List EventHandler)
    (eventName : String) (args : Nat) (s : QState) :
    (runEvent handlers eventName args s).1 = RunResult.resolved := by
  induction handlers generalizing s with
  | nil => rfl
  | cons h rest ih =>
    by_cases hm : h.type = eventName
    · rw [runEvent_cons_match h rest eventName args s hm]
      exact ih _
    · rw [runEvent_cons_skip h rest eventName args s hm]
      exact ih s

/-! ### Claim C2: errors stall the queue (code bug) -/

theorem runQ_stalled {s : QState} {a : Active} {e : String}
    (hc : s.current = some a) (hr : a.rem = .throw e) :
    ∀ n, runQ n s = s := by
  intro n
  induction n with
  | zero => rfl
  | succ m ih =>
    show runQ m (step s) = s
    rw [step_throw hc hr]
    exact ih

/-- C2 evaluated at the failing input: push a task whose handler throws
"boom" and then an independent task whose handler returns 7.  In the
code the throw escapes the deferred tick, the queue callback is never
invoked and the worker is never released: after any number of further
scheduler steps the first task's future has not been rejected (it is
still pending), and the second task never begins and never resolves —
the queue is halted, contradicting the claimed error policy. -/
theorem c2_thrown_error_stalls_queue (n : Nat) :
    (runQ (2 + n) (pushCalls
        [(⟨"A", false, some ⟨"p", "plugin-a", 0⟩, true, .throw "boom"⟩, 0),
         (⟨"B", false, some ⟨"p", "plugin-a", 0⟩, true, .ret 7⟩, 0)]
        initState)).futures 0 = some .pending ∧
    (runQ (2 + n) (pushCalls
        [(⟨"A", false, some ⟨"p", "plugin-a", 0⟩, true, .throw "boom"⟩, 0),
         (⟨"B", false, some ⟨"p", "plugin-a", 0⟩, true, .ret 7⟩, 0)]
        initState)).futures 1 = some .pending ∧
    TraceEv.beg 1 ∉ (runQ (2 + n) (pushCalls
        [(⟨"A", false, some ⟨"p", "plugin-a", 0⟩, true, .throw "boom"⟩, 0),
         (⟨"B", false, some ⟨"p", "plugin-a", 0⟩, true, .ret 7⟩, 0)]
        initState)).trace := by
  rw [runQ_add 2 n]
  rw [runQ_stalled rfl rfl n]
  refine ⟨rfl, rfl, by decide⟩

/-! ### Claim C1: strict FIFO serialization -/

/-- C1: in every run (any interleaving of external pushes and scheduler
steps from the initial state), the trace of handler executions is
properly bracketed with at most one task body open at every instant
(`scanOpen` succeeds), and whenever task `i + 1`'s handler body begins,
task `i` — the task pushed immediately before it, task ids being
submission order — has already begun and fully completed, including the
asynchronous tail it returns (`TraceEv.fin` is only emitted when the
settled result reaches the queue callback). -/
theorem c1_tasks_serialized_fifo (sched : List (Option (EventHandler × Nat))) :
    (scanOpen none (runSched initState sched).trace).isSome = true ∧
    ∀ i u v, (runSched initState sched).trace = u ++ TraceEv.beg (i + 1) :: v →
      TraceEv.beg i ∈ u ∧ TraceEv.fin i ∈ u := by
  have hI := qinv_runSched qinv_init sched
  constructor
  · rw [hI.scan]
    rfl
  · intro i u v htr
    have hbegs : beginTids u ++ (i + 1) :: beginTids v =
        List.range (runSched initState sched).execLog.length := by
      have h2 := hI.begs
      rw [htr, beginTids_append, beginTids_cons_beg, exec_tids_range hI] at h2
      exact h2
    obtain ⟨hlen, hu⟩ := range_split hbegs
    have hbi : TraceEv.beg i ∈ u := by
      have hmem : i ∈ beginTids u := by
        rw [hu]
        exact List.mem_range.mpr (Nat.lt_succ_self i)
      unfold beginTids at hmem
      rw [List.mem_filterMap] at hmem
      obtain ⟨e, he, hfe⟩ := hmem
      cases e with
      | beg t =>
        have h3 : t = i := by
          simpa using hfe
        rw [← h3]
        exact he
      | fin t => simp at hfe
    have hscan := hI.scan
    rw [htr, scanOpen_append] at hscan
    rcases ho : scanOpen none u with _ | o1
    · rw [ho] at hscan
      simp at hscan
    · rw [ho] at hscan
      cases o1 with
      | none => exact ⟨hbi, (scan_closed u none ho).1 i hbi⟩
      | some x =>
        simp [scanOpen] at hscan

theorem c1_tasks_serialized_fifo_witness :
    TraceEv.beg 0 ∈ [TraceEv.beg 0, TraceEv.fin 0] ∧
    TraceEv.fin 0 ∈ [TraceEv.beg 0, TraceEv.fin 0] :=
  (c1_tasks_serialized_fifo
      [some (⟨"A", false, some ⟨"p", "plugin-a", 0⟩, true, .ret 5⟩, 0),
       some (⟨"B", false, some ⟨"p", "plugin-a", 0⟩, true, .await (.ret 9)⟩, 0),
       none, none, none, none, none]).2
    0 [TraceEv.beg 0, TraceEv.fin 0] [TraceEv.fin 1] (by decide)

/-! ### Claim C3: parent tokens -/

/-- C3: in every run, every task ever enqueued carries as its recorded
parent the Context Token ambient in the caller's execution branch at
the moment of enqueue: a task pushed from outside any context scope
(`pushedBy = none`) has a null parent, and a task enqueued from inside
the execution of task `p` — however many asynchronous suspension points
preceded the inner call — has exactly the token generated for `p`'s
execution (`tokenOf`), which exists. -/
theorem c3_parent_token_of_enqueue (sched : List (Option (EventHandler × Nat))) :
    ∀ t ∈ (runSched initState sched).allTasks,
      (t.pushedBy = none → t.parent = none) ∧
      ∀ p, t.pushedBy = some p →
        t.parent = tokenOf (runSched initState sched) p ∧
        tokenOf (runSched initState sched) p ≠ none := by
  have hI := qinv_runSched qinv_init sched
  intro t ht
  obtain ⟨h1, h2⟩ := hI.parents t ht
  refine ⟨h1, ?_⟩
  intro p hp
  obtain ⟨r, hrm, e1, e2⟩ := h2 p hp
  have hfind := find_key_unique _ p r hrm e1 (exec_tids_nodup hI)
  unfold tokenOf
  rw [hfind]
  exact ⟨by rw [e2]; rfl, by simp⟩

theorem c3_parent_token_of_enqueue_witness :
    (((runSched initState
        [some (⟨"A", false, some ⟨"p", "plugin-a", 0⟩, true,
          .await (.invoke "B" (some ⟨"p", "plugin-a", 0⟩) (.ret 9) 7 (.ret 1))⟩, 0),
         none, none, none]).allTasks.getD 1
        ⟨0, 0, "", .ret 0, 0, none, none, none⟩).parent =
      tokenOf (runSched initState
        [some (⟨"A", false, some ⟨"p", "plugin-a", 0⟩, true,
          .await (.invoke "B" (some ⟨"p", "plugin-a", 0⟩) (.ret 9) 7 (.ret 1))⟩, 0),
         none, none, none]) 0) ∧
    tokenOf (runSched initState
        [some (⟨"A", false, some ⟨"p", "plugin-a", 0⟩, true,
          .await (.invoke "B" (some ⟨"p", "plugin-a", 0⟩) (.ret 9) 7 (.ret 1))⟩, 0),
         none, none, none]) 0 ≠ none :=
  (c3_parent_token_of_enqueue
      [some (⟨"A", false, some ⟨"p", "plugin-a", 0⟩, true,
        .await (.invoke "B" (some ⟨"p", "plugin-a", 0⟩) (.ret 9) 7 (.ret 1))⟩, 0),
       none, none, none]
      _ (by decide)).2 0 (by decide)

/-! ### Claim C8: fresh execution tokens -/

/-- C8: in every run, every executed task received a context token of
the form `{eventType}-{uuid}`; the uuid indices recorded in the
execution log are exactly `0, 1, 2, ...` in execution order — the token
is drawn when the task is dequeued and started, not when it was
enqueued, so the i-th execution consumes the i-th uuid regardless of
enqueue time; and distinct executions received pairwise distinct
tokens. -/
theorem c8_fresh_exec_tokens (sched : List (Option (EventHandler × Nat))) :
    (∀ r ∈ (runSched initState sched).execLog,
      r.token = r.type ++ "-" ++ uuidStr r.uidx) ∧
    ((runSched initState sched).execLog.map fun r => r.uidx) =
      List.range (runSched initState sched).execLog.length ∧
    List.Pairwise (fun r1 r2 => r1.token ≠ r2.token)
      (runSched initState sched).execLog := by
  have hI := qinv_runSched qinv_init sched
  refine ⟨hI.tokens, ?_, ?_⟩
  · rw [hI.uidxs, exec_length_nextU hI]
  · have hpu : List.Pairwise (fun r1 r2 : ExecRec => r1.uidx < r2.uidx)
        (runSched initState sched).execLog := by
      have h2 := List.pairwise_lt_range (runSched initState sched).nextU
      rw [← hI.uidxs] at h2
      exact List.pairwise_map.mp h2
    refine hpu.imp_of_mem ?_
    intro a b ha hb hlt
    rw [hI.tokens a ha, hI.tokens b hb]
    exact token_ne (Nat.ne_of_lt hlt)

theorem c8_fresh_exec_tokens_witness :
    ((runSched initState
        [some (⟨"A", false, some ⟨"p", "plugin-a", 0⟩, true, .ret 5⟩, 0),
         some (⟨"B", false, some ⟨"p", "plugin-a", 0⟩, true, .ret 9⟩, 0),
         none, none, none, none]).execLog.getD 1 ⟨0, "", 0, ""⟩).token =
      ((runSched initState
        [some (⟨"A", false, some ⟨"p", "plugin-a", 0⟩, true, .ret 5⟩, 0),
         some (⟨"B", false, some ⟨"p", "plugin-a", 0⟩, true, .ret 9⟩, 0),
         none, none, none, none]).execLog.getD 1 ⟨0, "", 0, ""⟩).type ++ "-" ++
      uuidStr ((runSched initState
        [some (⟨"A", false, some ⟨"p", "plugin-a", 0⟩, true, .ret 5⟩, 0),
         some (⟨"B", false, some ⟨"p", "plugin-a", 0⟩, true, .ret 9⟩, 0),
         none, none, none, none]).execLog.getD 1 ⟨0, "", 0, ""⟩).uidx :=
  (c8_fresh_exec_tokens
      [some (⟨"A", false, some ⟨"p", "plugin-a", 0⟩, true, .ret 5⟩, 0),
       some (⟨"B", false, some ⟨"p", "plugin-a", 0⟩, true, .ret 9⟩, 0),
       none, none, none, none]).1 _ (by decide)

/-! ### Claim C7: result round-trip -/

/-- C7: for every idle queue state whose pending tasks all have
straight-line handler bodies (a body with no `await` returns a plain
value; a body with `await`s returns an eventually-resolved asynchronous
value) and pairwise distinct future ids, draining the queue resolves
every task's future with exactly the value its handler finally returns
— the plain value itself, or the unwrapped resolved value of the
returned asynchronous result. -/
theorem c7_result_roundtrip (ts : List ITask) (s : QState)
    (hc : s.current = none) (hp : s.pending = ts)
    (hstr : ∀ t ∈ ts, straight t.prog = true)
    (hnd : (ts.map fun t => t.fid).Nodup) :
    ∀ t ∈ ts, (runQ (fuelT ts) s).futures t.fid =
      some (.resolved (retValOf t.prog)) :=
  runQ_drain_resolved ts s hc hp hstr hnd

theorem c7_result_roundtrip_witness :
    (runQ (fuelT (pushCalls
        [(⟨"A", false, some ⟨"p", "plugin-a", 0⟩, true, .ret 5⟩, 0),
         (⟨"B", false, some ⟨"p", "plugin-a", 0⟩, true, .await (.ret 9)⟩, 0)]
        initState).pending)
      (pushCalls
        [(⟨"A", false, some ⟨"p", "plugin-a", 0⟩, true, .ret 5⟩, 0),
         (⟨"B", false, some ⟨"p", "plugin-a", 0⟩, true, .await (.ret 9)⟩, 0)]
        initState)).futures 1 = some (.resolved 9) :=
  c7_result_roundtrip
    (pushCalls
      [(⟨"A", false, some ⟨"p", "plugin-a", 0⟩, true, .ret 5⟩, 0),
       (⟨"B", false, some ⟨"p", "plugin-a", 0⟩, true, .await (.ret 9)⟩, 0)]
      initState).pending
    (pushCalls
      [(⟨"A", false, some ⟨"p", "plugin-a", 0⟩, true, .ret 5⟩, 0),
       (⟨"B", false, some ⟨"p", "plugin-a", 0⟩, true, .await (.ret 9)⟩, 0)]
      initState)
    rfl rfl (by decide) (by decide)
    ⟨1, 1, "B", .await (.ret 9), 0, none, some ⟨"p", "plugin-a", 0⟩, none⟩ (by decide)
